import Mathlib

/-!
Verification of the directory cleaning and archiving engine of the
FastForge repository: a shallow embedding of `src/cleaner.py`
(class `DirectoryCleaner`) and `src/zipper/zipper.py`
(class `DirectoryZipper` and its standalone `main`).

The filesystem is modelled as a forest of named entries.  A file carries
its byte content (as a `String`, whose length is its size) and a flag
`addOk` modelling whether adding it to a zip archive succeeds (the
per-file `try/except` around `zipf.write`).  A directory carries its
child list.  `os.walk` over a root corresponds to recursion over the
child list of the root.  The model filesystem has unique names per
directory and no stat errors; `shutil.rmtree` and `os.remove` succeed on
it, except where a success flag is made explicit to study the error
paths.
-/

mutual
inductive FSEntry where
  | file (name : String) (content : String) (addOk : Bool) : FSEntry
  | dir (name : String) (children : FSList) : FSEntry
inductive FSList where
  | nil : FSList
  | cons (e : FSEntry) (rest : FSList) : FSList
end

def FSEntry.name : FSEntry → String
  | .file n _ _ => n
  | .dir n _ => n

/-- Total byte size of a forest, modelling
`DirectoryCleaner.get_directory_size`: the sum of the sizes of every
file reachable below the path.  In the source a per-file stat error
contributes zero; the model has no stat errors. -/
def sizeL : FSList → Nat
  | .nil => 0
  | .cons (.file _ c _) rest => c.length + sizeL rest
  | .cons (.dir _ cs) rest => sizeL cs + sizeL rest

/-- First child with the given name, modelling how a path component
resolves inside a directory (names are unique per directory on a real
filesystem). -/
def findEntry : FSList → String → Option FSEntry
  | .nil, _ => none
  | .cons e rest, n => if e.name = n then some e else findEntry rest n

/-- Resolve a relative path (a nonempty list of segments) below a
forest to the entry it names, if any. -/
def lookupPath : FSList → List String → Option FSEntry
  | _, [] => none
  | l, [n] => findEntry l n
  | l, n :: m :: rest =>
    match findEntry l n with
    | some (.dir _ cs) => lookupPath cs (m :: rest)
    | _ => none

/-! ## Cleaner (`DirectoryCleaner`) -/

/-- Class constant `PYTHON_CLEAN_TARGETS` of `DirectoryCleaner`.  Note
that `clean_python_cache` does not consult this list: it hardcodes its
own checks, and `.coverage`, `htmlcov` and `.tox` are never removed. -/
def PYTHON_CLEAN_TARGETS : List String :=
  ["__pycache__", "*.pyc", "*.pyo", ".pytest_cache", ".coverage",
   "htmlcov", ".tox", ".mypy_cache", ".ruff_cache", "dist", "build",
   "*.egg-info"]

/-- Class constant `REACT_CLEAN_TARGETS` of `DirectoryCleaner`; the list
`clean_react_cache` iterates over. -/
def REACT_CLEAN_TARGETS : List String :=
  ["node_modules", ".next", "dist", "build", ".cache", ".parcel-cache",
   ".nuxt", ".output", ".vite", "coverage"]

/-- Model of the Python string method `endswith`: the suffix, reversed,
leads the reversed character list. -/
def strEndsWith (s suffix : String) : Bool :=
  List.isPrefixOf suffix.data.reverse s.data.reverse

/-- Directory names `clean_python_cache` removes: the literal
`__pycache__` check, the hardcoded
`[.pytest_cache, .mypy_cache, .ruff_cache, dist, build]` loop, and the
`.egg-info` suffix loop. -/
def pythonDirMatch (name : String) : Bool :=
  name = "__pycache__"
  || [".pytest_cache", ".mypy_cache", ".ruff_cache", "dist", "build"].contains name
  || strEndsWith name ".egg-info"

/-- File names `clean_python_cache` deletes: `name.endswith((".pyc", ".pyo"))`. -/
def pythonFileMatch (name : String) : Bool :=
  strEndsWith name ".pyc" || strEndsWith name ".pyo"

/-- Directory names `clean_react_cache` removes: membership in
`REACT_CLEAN_TARGETS`. -/
def reactDirMatch (name : String) : Bool :=
  REACT_CLEAN_TARGETS.contains name

/-- Outcome of one cleaning pass over a forest: the surviving forest and
the increments the pass added to `removed_count` and `removed_size`. -/
structure CleanRes where
  fs : FSList
  count : Nat
  bytes : Nat

/-- Denotation of `clean_python_cache` on the subtree below one
directory.  The `os.walk(root, topdown=False)` order means a child
subtree is processed before the directory holding it, so when a matched
directory is removed by `remove_folder`, `get_directory_size` measures
it after its own interior was already cleaned at its earlier visits;
`.pyc`/`.pyo` files are deleted with `os.remove`, which updates no
statistics. -/
def cleanPyRun : FSList → CleanRes
  | .nil => ⟨.nil, 0, 0⟩
  | .cons (.file n c ok) rest =>
    let r := cleanPyRun rest
    if pythonFileMatch n then r else ⟨.cons (.file n c ok) r.fs, r.count, r.bytes⟩
  | .cons (.dir n cs) rest =>
    let rc := cleanPyRun cs
    let rr := cleanPyRun rest
    if pythonDirMatch n then
      ⟨rr.fs, rc.count + 1 + rr.count, rc.bytes + sizeL rc.fs + rr.bytes⟩
    else
      ⟨.cons (.dir n rc.fs) rr.fs, rc.count + rr.count, rc.bytes + rr.bytes⟩

/-- Denotation of `clean_react_cache`: the same bottom-up walk, removing
directories whose name is in `REACT_CLEAN_TARGETS`; it deletes no plain
files. -/
def cleanReactRun : FSList → CleanRes
  | .nil => ⟨.nil, 0, 0⟩
  | .cons (.file n c ok) rest =>
    let r := cleanReactRun rest
    ⟨.cons (.file n c ok) r.fs, r.count, r.bytes⟩
  | .cons (.dir n cs) rest =>
    let rc := cleanReactRun cs
    let rr := cleanReactRun rest
    if reactDirMatch n then
      ⟨rr.fs, rc.count + 1 + rr.count, rc.bytes + sizeL rc.fs + rr.bytes⟩
    else
      ⟨.cons (.dir n rc.fs) rr.fs, rc.count + rr.count, rc.bytes + rr.bytes⟩

/-- Denotation of `clean_all`: `clean_python_cache` then
`clean_react_cache`; the summary it prints is the delta accumulated
since the call began (`removed_count - initial_count` and the
corresponding byte difference), which is exactly the sum of the two
pass increments. -/
def clean_all_run (fs : FSList) : CleanRes :=
  let p := cleanPyRun fs
  let r := cleanReactRun p.fs
  ⟨r.fs, p.count + r.count, p.bytes + r.bytes⟩

/-- Running `clean_all` against a root that is `none` (the root does not
exist or is not a directory): `os.walk` yields no triples at all, so
both passes do nothing and the reported delta is zero.  No validation
happens inside `DirectoryCleaner`. -/
def clean_all_opt : Option FSList → Option FSList × Nat × Nat
  | none => (none, 0, 0)
  | some fs =>
    let r := clean_all_run fs
    (some r.fs, r.count, r.bytes)

/-- Running statistics owned by one `DirectoryCleaner` instance. -/
structure CleanerStats where
  removed_count : Nat
  removed_size : Nat

/-- Method `DirectoryCleaner.remove_folder`: when the path exists (`folder` is
`some children`), its size is measured first, then `shutil.rmtree` runs
(`rm_ok` models whether it raises); only after a successful removal are
both counters incremented, together.  A raised exception is caught and
the counters are untouched; a missing path skips everything and returns
`False`. -/
def remove_folder (st : CleanerStats) (folder : Option FSList) (rm_ok : Bool) :
    CleanerStats × Bool :=
  match folder with
  | none => (st, false)
  | some children =>
    if rm_ok then
      (⟨st.removed_count + 1, st.removed_size + sizeL children⟩, true)
    else
      (st, false)

/-! ## Archiver (`DirectoryZipper`)

The zipper holds a resolved absolute source directory, represented by
its list of path segments, and the registered exclude patterns. -/

structure Zipper where
  source_parts : List String
  exclude_patterns : List String

/-- Property `source_dir.name`: the last segment of the resolved source
path. -/
def Zipper.source_name (z : Zipper) : String := z.source_parts.getLastD ""

/-- Built-in `cache_patterns` list inside `DirectoryZipper.should_exclude`. -/
def cache_patterns : List String :=
  ["__pycache__", "node_modules", ".next", ".git",
   ".vscode", ".idea", "dist", "build", ".cache"]

/-- Function `DirectoryZipper.should_exclude`: true when any segment of
the full path equals a registered exclude pattern, or any built-in cache
pattern occurs among the segments of the path. -/
def should_exclude (z : Zipper) (path_parts : List String) : Bool :=
  path_parts.any (fun part => z.exclude_patterns.contains part)
  || cache_patterns.any (fun pattern => path_parts.contains pattern)

/-- Function `os.path.relpath(full, base)` in the only situation
`create_zip` uses it: `base` leads to `full` (the file lies below the
parent of the source root), so the relative path is `full` with the
leading `base` segments dropped. -/
def relpath_from (full base : List String) : List String :=
  full.drop base.length

/-- Observable outcome of the `os.walk` loop of `create_zip`: the
archive entries (path inside the archive, file content) in the order
they were written, the `total_files` and `compressed_files` counters,
the full paths of files whose `zipf.write` raised (each logged with a
`Warning: Could not add ...` line), and the directories the walk opened,
as paths relative to the source root (the `root` of each
`(root, dirs, files)` triple `os.walk` yielded). -/
structure ZipRes where
  entries : List (List String × String)
  total_files : Nat
  compressed_files : Nat
  failed : List (List String)
  visited : List (List String)

def ZipRes.empty : ZipRes := ⟨[], 0, 0, [], []⟩

def ZipRes.append (a b : ZipRes) : ZipRes :=
  ⟨a.entries ++ b.entries, a.total_files + b.total_files,
   a.compressed_files + b.compressed_files, a.failed ++ b.failed,
   a.visited ++ b.visited⟩

/-- Inner `for file in files` loop of `create_zip` at one directory;
`rel` is the path of that directory relative to the source root.  An
excluded file is skipped by `continue` before any counter changes;
otherwise `zipf.write(file_path, rel_path)` is attempted,
`compressed_files` increments only on success, the failure path logs a
warning with the path, and `total_files` increments either way. -/
def zipFiles (z : Zipper) (rel : List String) : FSList → ZipRes
  | .nil => ZipRes.empty
  | .cons (.dir _ _) rest => zipFiles z rel rest
  | .cons (.file name content ok) rest =>
    let r := zipFiles z rel rest
    if should_exclude z (z.source_parts ++ rel ++ [name]) then r
    else
      let rel_path := relpath_from (z.source_parts ++ rel ++ [name])
        z.source_parts.dropLast
      if ok then
        ⟨(rel_path, content) :: r.entries, r.total_files + 1,
         r.compressed_files + 1, r.failed, r.visited⟩
      else
        ⟨r.entries, r.total_files + 1, r.compressed_files,
         (z.source_parts ++ rel ++ [name]) :: r.failed, r.visited⟩

/-- Directory descent of the walk in `create_zip`.  The assignment
`dirs[:] = [d for d in dirs if not self.should_exclude(...)]` drops
excluded subdirectories before `os.walk` descends, so an excluded
directory contributes nothing to the result and is never opened.  A
kept directory is opened (recorded in `visited`), its files are
handled, then its subdirectories, depth first, in listed order. -/
def zipDirs (z : Zipper) (rel : List String) : FSList → ZipRes
  | .nil => ZipRes.empty
  | .cons (.file _ _ _) rest => zipDirs z rel rest
  | .cons (.dir name cs) rest =>
    if should_exclude z (z.source_parts ++ rel ++ [name]) then
      zipDirs z rel rest
    else
      ZipRes.append
        (ZipRes.append ⟨[], 0, 0, [], [rel ++ [name]]⟩
          (ZipRes.append (zipFiles z (rel ++ [name]) cs)
            (zipDirs z (rel ++ [name]) cs)))
        (zipDirs z rel rest)

/-- Whole `os.walk(self.source_dir)` pass of `create_zip`: the source
root itself is the first directory yielded, its files are handled, then
the walk descends top-down into the non-pruned subdirectories. -/
def zipWalk (z : Zipper) (children : FSList) : ZipRes :=
  ZipRes.append ⟨[], 0, 0, [], [[]]⟩
    (ZipRes.append (zipFiles z [] children) (zipDirs z [] children))

/-- Method `DirectoryZipper.create_zip`.  `fs` is the forest below the
source root, `none` when the root does not exist or is not a directory
(no validation happens inside the method; `os.walk` then yields nothing
and an empty archive is still written).  `now` stands for the
`datetime.now().strftime(...)` timestamp used when no output path is
given.  Exceptions escaping the method would surface as `.error`; with
the modelled filesystem no step of the method raises, so the method
always returns the output path together with the walk outcome. -/
def create_zip (z : Zipper) (fs : Option FSList) (output_path : Option String)
    (clean_first : Bool) (now : String) : Except String (String × ZipRes) :=
  let fs1 := if clean_first then (clean_all_opt fs).1 else fs
  let out :=
    match output_path with
    | some p => p
    | none => z.source_name ++ "_cleaned_" ++ now ++ ".zip"
  let res :=
    match fs1 with
    | none => ZipRes.empty
    | some children => zipWalk z children
  Except.ok (out, res)

/-- Method `DirectoryZipper.create_clean_zip`: `create_zip` with
`clean_first=True` and the default compression level. -/
def create_clean_zip (z : Zipper) (fs : Option FSList)
    (output_path : Option String) (now : String) :
    Except String (String × ZipRes) :=
  create_zip z fs output_path true now

/-! ## Compression-level parsing in `zipper.main`

The standalone CLI reads `compression_input` (already `.strip()`ed),
computes `int(compression_input) if compression_input else 6` inside a
`try/except ValueError` that falls back to 6, and clamps the parsed
value with `compression_level = max(0, min(9, compression_level))`. -/

def digitsVal : List Char → Option Nat
  | [] => none
  | cs =>
    if cs.all Char.isDigit then
      some (cs.foldl (fun acc c => acc * 10 + (c.toNat - Char.toNat '0')) 0)
    else none

/-- Python `int(s)` on a whitespace-stripped string: an optional sign
followed by a nonempty digit run; anything else raises `ValueError`,
modelled as `none`. -/
def pyInt : String → Option Int
  | s =>
    match s.data with
    | '-' :: rest => (digitsVal rest).map (fun n => -(n : Int))
    | '+' :: rest => (digitsVal rest).map (fun n => (n : Int))
    | cs => (digitsVal cs).map (fun n => (n : Int))

/-- Compression level the CLI `main` of `zipper.py` passes to
`create_zip`: parse, then clamp into `[0, 9]`; a `ValueError` falls back
to 6 and skips the clamp (6 is already in range). -/
def parse_compression_level (compression_input : String) : Int :=
  match (if compression_input = "" then some 6 else pyInt compression_input) with
  | some n => max 0 (min 9 n)
  | none => 6

/-! ## Derived cleaning artefacts used to state the frame property -/

/-- Whether one entry survives the combined clean pass on name grounds:
directories fall to either pass when their name matches; files fall to
the python pass when their extension matches. -/
def keepName : FSEntry → Bool
  | .file n _ _ => !pythonFileMatch n
  | .dir n _ => !(pythonDirMatch n || reactDirMatch n)

/-- Net filesystem effect of `clean_all` as a single recursive filter:
drop every subtree rooted at a matched name, keep everything else. -/
def cleanFS : FSList → FSList
  | .nil => .nil
  | .cons (.file n c ok) rest =>
    if pythonFileMatch n then cleanFS rest
    else .cons (.file n c ok) (cleanFS rest)
  | .cons (.dir n cs) rest =>
    if pythonDirMatch n || reactDirMatch n then cleanFS rest
    else .cons (.dir n (cleanFS cs)) (cleanFS rest)

/-- Shape of a surviving entry after `clean_all`: a file is unchanged, a
surviving directory keeps exactly the children the pass keeps. -/
def cleanView : FSEntry → FSEntry
  | .file n c ok => .file n c ok
  | .dir n cs => .dir n ((clean_all_run cs).fs)

/-- Along a relative path, every resolved component survives the clean
pass on name grounds (so no ancestor of the endpoint is removed). -/
def pathKept : FSList → List String → Bool
  | _, [] => false
  | l, [n] =>
    match findEntry l n with
    | some e => keepName e
    | none => false
  | l, n :: m :: rest =>
    match findEntry l n with
    | some (.dir nm cs) => keepName (.dir nm cs) && pathKept cs (m :: rest)
    | _ => false

/-- Forest with no python-pass match anywhere: no directory with a
matched name and no `.pyc`/`.pyo` file survives in it. -/
def noPyMatch : FSList → Bool
  | .nil => true
  | .cons (.file n _ _) rest => !pythonFileMatch n && noPyMatch rest
  | .cons (.dir n cs) rest =>
    !pythonDirMatch n && noPyMatch cs && noPyMatch rest

/-- Forest with no react-pass match anywhere. -/
def noReactMatch : FSList → Bool
  | .nil => true
  | .cons (.file _ _ _) rest => noReactMatch rest
  | .cons (.dir n cs) rest =>
    !reactDirMatch n && noReactMatch cs && noReactMatch rest

/-- Concrete source tree used by several witnesses:
`{a.txt: "hello", sub/b.txt: "world"}`. -/
def projTree : FSList :=
  .cons (.file "a.txt" "hello" true)
    (.cons (.dir "sub" (.cons (.file "b.txt" "world" true) .nil)) .nil)

/-- Concrete tree with an unmatched directory inside `node_modules`. -/
def nodeModulesTree : FSList :=
  .cons (.dir "node_modules" (.cons (.dir "pkg" .nil) .nil)) .nil

/-- Concrete tree holding a directory named `secret` next to a plain
file, used to exercise the exclusion of a registered pattern. -/
def secretTree : FSList :=
  .cons (.dir "secret" (.cons (.file "s.txt" "s" true) .nil))
    (.cons (.file "a.txt" "hello" true) .nil)

/-! ## Helper lemmas -/

theorem ZipRes.append_entries (a b : ZipRes) :
    (a.append b).entries = a.entries ++ b.entries := rfl

theorem ZipRes.append_totals (a b : ZipRes) :
    (a.append b).total_files = a.total_files + b.total_files := rfl

theorem ZipRes.append_compressed (a b : ZipRes) :
    (a.append b).compressed_files = a.compressed_files + b.compressed_files := rfl

theorem ZipRes.append_failed (a b : ZipRes) :
    (a.append b).failed = a.failed ++ b.failed := rfl

theorem ZipRes.append_visited (a b : ZipRes) :
    (a.append b).visited = a.visited ++ b.visited := rfl

/-- Inside one directory, `total_files` counts exactly the files that
passed the exclusion check: every such file lands either in the archive
or in the warned list. -/
theorem zipFiles_count (z : Zipper) (rel : List String) :
    ∀ l, (zipFiles z rel l).total_files
      = (zipFiles z rel l).compressed_files + (zipFiles z rel l).failed.length
  | .nil => rfl
  | .cons (.dir _ _) rest => zipFiles_count z rel rest
  | .cons (.file n c ok) rest => by
    have ih := zipFiles_count z rel rest
    simp only [zipFiles]
    split
    · exact ih
    · split <;> simp <;> omega

theorem zipDirs_count (z : Zipper) (rel : List String) :
    ∀ l, (zipDirs z rel l).total_files
      = (zipDirs z rel l).compressed_files + (zipDirs z rel l).failed.length
  | .nil => rfl
  | .cons (.file _ _ _) rest => zipDirs_count z rel rest
  | .cons (.dir n cs) rest => by
    have ihc := zipDirs_count z (rel ++ [n]) cs
    have ihr := zipDirs_count z rel rest
    have ihf := zipFiles_count z (rel ++ [n]) cs
    simp only [zipDirs]
    split
    · exact ihr
    · simp [ZipRes.append]
      omega

theorem zipWalk_count (z : Zipper) (l : FSList) :
    (zipWalk z l).total_files
      = (zipWalk z l).compressed_files + (zipWalk z l).failed.length := by
  have hf := zipFiles_count z [] l
  have hd := zipDirs_count z [] l
  simp [zipWalk, ZipRes.append]
  omega

/-! ## Claims -/

/-- C1, counterexample: the CLI input `"15"` does not fall back to the
default level 6 — the `max(0, min(9, ...))` clamp maps it to 9. -/
theorem C1_counterexample :
    parse_compression_level "15" = 9 ∧ ¬ parse_compression_level "15" = 6 := by
  decide

/-- C1, amended: a non-numeric compression input such as `"abc"` falls
back to the default 6, a numeric out-of-range input such as `"15"` is
clamped into range (to 9, not to the default), and the boundary inputs
`"0"` and `"9"` are passed through to `create_zip` exactly. -/
theorem C1_compression_levels :
    parse_compression_level "abc" = 6 ∧ parse_compression_level "15" = 9 ∧
    parse_compression_level "0" = 0 ∧ parse_compression_level "9" = 9 := by
  decide

/-- C2, counterexample: a walked file that the exclusion check skips
(here a file literally named `build`, matched by the built-in cache
patterns) leaves `total_files` at 0 — the `continue` fires before the
counter increment, so excluded files are not counted as processed. -/
theorem C2_counterexample :
    should_exclude ⟨["root", "proj"], []⟩ ["root", "proj", "build"] = true ∧
    (zipWalk ⟨["root", "proj"], []⟩
      (.cons (.file "build" "x" true) .nil)).total_files = 0 := by
  decide

/-- C2, amended: a file skipped by the exclusion check leaves the walk
outcome completely unchanged (in particular `total_files` does not
count it); `total_files` counts exactly the files that pass the
exclusion check — each one ends up either compressed or warned about —
and `compressed_files` counts only the files successfully added. -/
theorem C2_total_counts (z : Zipper) (rel : List String) (n c : String)
    (ok : Bool) (rest : FSList) (l : FSList)
    (h : should_exclude z (z.source_parts ++ rel ++ [n]) = true) :
    zipFiles z rel (.cons (.file n c ok) rest) = zipFiles z rel rest ∧
    (zipWalk z l).total_files
      = (zipWalk z l).compressed_files + (zipWalk z l).failed.length := by
  refine ⟨?_, zipWalk_count z l⟩
  rw [List.append_assoc] at h
  simp [zipFiles, h]

theorem C2_total_counts_witness :
    zipFiles ⟨["root", "proj"], []⟩ [] (.cons (.file "build" "x" true) .nil)
      = zipFiles ⟨["root", "proj"], []⟩ [] .nil ∧
    (zipWalk ⟨["root", "proj"], []⟩ projTree).total_files
      = (zipWalk ⟨["root", "proj"], []⟩ projTree).compressed_files
        + (zipWalk ⟨["root", "proj"], []⟩ projTree).failed.length :=
  C2_total_counts ⟨["root", "proj"], []⟩ [] "build" "x" true .nil projTree
    (by decide)

/-- C3, counterexample: with a source root that does not exist (or is
not a directory), `create_zip` does not fail before traversal — it
opens the archive, walks nothing, writes an empty archive and returns
the output path; likewise the clean pass completes normally with zero
statistics.  Neither operation validates the root. -/
theorem C3_counterexample :
    create_zip ⟨["root", "proj"], []⟩ none (some "out.zip") false "ts"
      = Except.ok ("out.zip", ZipRes.empty) ∧
    clean_all_opt none = (none, 0, 0) := ⟨rfl, rfl⟩

/-- C3, amended: the engine operations perform no input validation (the
standalone CLIs re-prompt before invoking them).  On a root that does
not exist or is not a directory, `os.walk` yields nothing, so the clean
pass removes nothing and reports zero, and `create_zip` still produces
an archive — an empty one — and returns the output path instead of
failing. -/
theorem C3_missing_root (z : Zipper) (p : String) (clean_first : Bool)
    (now : String) :
    create_zip z none (some p) clean_first now = Except.ok (p, ZipRes.empty) ∧
    clean_all_opt none = (none, 0, 0) := by
  cases clean_first <;> exact ⟨rfl, rfl⟩

/-- C8: a file whose archive add raises (`addOk = false`) contributes no
archive entry and no `compressed_files` increment; its full path is
logged in the warning list, `total_files` still counts it, the walk
result for the remaining files is untouched (the pass continues), and
`create_zip` completes, returning the output path. -/
theorem C8_failed_add_skipped (z : Zipper) (rel : List String) (n c : String)
    (rest : FSList) (fs : Option FSList) (cf : Bool) (out now : String)
    (h : should_exclude z (z.source_parts ++ rel ++ [n]) = false) :
    (zipFiles z rel (.cons (.file n c false) rest)).entries
      = (zipFiles z rel rest).entries ∧
    (zipFiles z rel (.cons (.file n c false) rest)).compressed_files
      = (zipFiles z rel rest).compressed_files ∧
    (zipFiles z rel (.cons (.file n c false) rest)).total_files
      = (zipFiles z rel rest).total_files + 1 ∧
    (zipFiles z rel (.cons (.file n c false) rest)).failed
      = (z.source_parts ++ rel ++ [n]) :: (zipFiles z rel rest).failed ∧
    ∃ res, create_zip z fs (some out) cf now = Except.ok (out, res) := by
  rw [List.append_assoc] at h
  refine ⟨?_, ?_, ?_, ?_, ⟨_, rfl⟩⟩ <;> simp [zipFiles, h]

theorem C8_failed_add_skipped_witness :
    (zipFiles ⟨["root", "proj"], []⟩ [] (.cons (.file "bad" "b" false) projTree)).entries
      = (zipFiles ⟨["root", "proj"], []⟩ [] projTree).entries ∧
    (zipFiles ⟨["root", "proj"], []⟩ [] (.cons (.file "bad" "b" false) projTree)).compressed_files
      = (zipFiles ⟨["root", "proj"], []⟩ [] projTree).compressed_files ∧
    (zipFiles ⟨["root", "proj"], []⟩ [] (.cons (.file "bad" "b" false) projTree)).total_files
      = (zipFiles ⟨["root", "proj"], []⟩ [] projTree).total_files + 1 ∧
    (zipFiles ⟨["root", "proj"], []⟩ [] (.cons (.file "bad" "b" false) projTree)).failed
      = (["root", "proj"] ++ [] ++ ["bad"]) :: (zipFiles ⟨["root", "proj"], []⟩ [] projTree).failed ∧
    ∃ res, create_zip ⟨["root", "proj"], []⟩ (some projTree) (some "out.zip") false "ts"
      = Except.ok ("out.zip", res) :=
  C8_failed_add_skipped ⟨["root", "proj"], []⟩ [] "bad" "b" projTree
    (some projTree) false "out.zip" "ts" (by decide)

/-- C9: `remove_folder` increments `removed_count` and `removed_size`
together, by one and by the measured size, exactly when the path exists
and the removal succeeds; a removal that raises or targets a missing
path leaves both counters unchanged, so both statistics are
monotonically non-decreasing across every call. -/
theorem C9_remove_folder_monotone (st : CleanerStats) (children : FSList)
    (f : Option FSList) (ok : Bool) :
    remove_folder st (some children) true
      = (⟨st.removed_count + 1, st.removed_size + sizeL children⟩, true) ∧
    remove_folder st (some children) false = (st, false) ∧
    remove_folder st none ok = (st, false) ∧
    st.removed_count ≤ (remove_folder st f ok).1.removed_count ∧
    st.removed_size ≤ (remove_folder st f ok).1.removed_size := by
  refine ⟨rfl, rfl, rfl, ?_, ?_⟩ <;>
    (cases f <;> cases ok <;> simp [remove_folder])

/-- Induction principle for forests following the shape of the walks:
a file head, or a directory head whose children satisfy the property. -/
theorem FSList.customInduction {P : FSList → Prop}
    (hnil : P .nil)
    (hfile : ∀ n c ok rest, P rest → P (.cons (.file n c ok) rest))
    (hdir : ∀ n cs rest, P cs → P rest → P (.cons (.dir n cs) rest)) :
    ∀ l, P l
  | .nil => hnil
  | .cons (.file n c ok) rest =>
    hfile n c ok rest (customInduction hnil hfile hdir rest)
  | .cons (.dir n cs) rest =>
    hdir n cs rest (customInduction hnil hfile hdir cs)
      (customInduction hnil hfile hdir rest)

/-! Case equations for the recursive walk functions, stated once so the
later proofs can rewrite with them. -/

theorem cleanPyRun_file (n c : String) (ok : Bool) (rest : FSList) :
    cleanPyRun (.cons (.file n c ok) rest)
      = if pythonFileMatch n then cleanPyRun rest
        else ⟨.cons (.file n c ok) (cleanPyRun rest).fs,
          (cleanPyRun rest).count, (cleanPyRun rest).bytes⟩ := by
  rw [cleanPyRun]

theorem cleanPyRun_dir (n : String) (cs rest : FSList) :
    cleanPyRun (.cons (.dir n cs) rest)
      = if pythonDirMatch n then
          ⟨(cleanPyRun rest).fs,
           (cleanPyRun cs).count + 1 + (cleanPyRun rest).count,
           (cleanPyRun cs).bytes + sizeL (cleanPyRun cs).fs + (cleanPyRun rest).bytes⟩
        else
          ⟨.cons (.dir n (cleanPyRun cs).fs) (cleanPyRun rest).fs,
           (cleanPyRun cs).count + (cleanPyRun rest).count,
           (cleanPyRun cs).bytes + (cleanPyRun rest).bytes⟩ := by
  rw [cleanPyRun]

theorem cleanReactRun_file (n c : String) (ok : Bool) (rest : FSList) :
    cleanReactRun (.cons (.file n c ok) rest)
      = ⟨.cons (.file n c ok) (cleanReactRun rest).fs,
         (cleanReactRun rest).count, (cleanReactRun rest).bytes⟩ := by
  rw [cleanReactRun]

theorem cleanReactRun_dir (n : String) (cs rest : FSList) :
    cleanReactRun (.cons (.dir n cs) rest)
      = if reactDirMatch n then
          ⟨(cleanReactRun rest).fs,
           (cleanReactRun cs).count + 1 + (cleanReactRun rest).count,
           (cleanReactRun cs).bytes + sizeL (cleanReactRun cs).fs + (cleanReactRun rest).bytes⟩
        else
          ⟨.cons (.dir n (cleanReactRun cs).fs) (cleanReactRun rest).fs,
           (cleanReactRun cs).count + (cleanReactRun rest).count,
           (cleanReactRun cs).bytes + (cleanReactRun rest).bytes⟩ := by
  rw [cleanReactRun]

theorem noPyMatch_file (n c : String) (ok : Bool) (rest : FSList) :
    noPyMatch (.cons (.file n c ok) rest)
      = (!pythonFileMatch n && noPyMatch rest) := by
  rw [noPyMatch]

theorem noPyMatch_dir (n : String) (cs rest : FSList) :
    noPyMatch (.cons (.dir n cs) rest)
      = (!pythonDirMatch n && noPyMatch cs && noPyMatch rest) := by
  rw [noPyMatch]

theorem noReactMatch_file (n c : String) (ok : Bool) (rest : FSList) :
    noReactMatch (.cons (.file n c ok) rest) = noReactMatch rest := by
  rw [noReactMatch]

theorem noReactMatch_dir (n : String) (cs rest : FSList) :
    noReactMatch (.cons (.dir n cs) rest)
      = (!reactDirMatch n && noReactMatch cs && noReactMatch rest) := by
  rw [noReactMatch]

/-- After the python pass no python-matched name survives anywhere. -/
theorem cleanPy_no_match (l : FSList) : noPyMatch (cleanPyRun l).fs = true := by
  induction l using FSList.customInduction with
  | hnil => rfl
  | hfile n c ok rest ih =>
    cases h : pythonFileMatch n <;>
      simp only [cleanPyRun_file, h, Bool.false_eq_true, if_false, if_true,
        noPyMatch_file, ih, Bool.not_false, Bool.and_self]
  | hdir n cs rest ihc ihr =>
    cases h : pythonDirMatch n <;>
      simp only [cleanPyRun_dir, h, Bool.false_eq_true, if_false, if_true,
        noPyMatch_dir, ihc, ihr, Bool.not_false, Bool.and_self]

/-- After the react pass no react-matched directory survives anywhere. -/
theorem cleanReact_no_match (l : FSList) :
    noReactMatch (cleanReactRun l).fs = true := by
  induction l using FSList.customInduction with
  | hnil => rfl
  | hfile n c ok rest ih =>
    simp only [cleanReactRun_file, noReactMatch_file, ih]
  | hdir n cs rest ihc ihr =>
    cases h : reactDirMatch n <;>
      simp only [cleanReactRun_dir, h, Bool.false_eq_true, if_false, if_true,
        noReactMatch_dir, ihc, ihr, Bool.not_false, Bool.and_self]

/-- The react pass only removes entries, so it cannot reintroduce a
python-matched name. -/
theorem cleanReact_preserves_noPy (l : FSList) (h : noPyMatch l = true) :
    noPyMatch (cleanReactRun l).fs = true := by
  induction l using FSList.customInduction with
  | hnil => rfl
  | hfile n c ok rest ih =>
    rw [noPyMatch_file, Bool.and_eq_true] at h
    simp only [cleanReactRun_file, noPyMatch_file, h.1, ih h.2, Bool.and_self]
  | hdir n cs rest ihc ihr =>
    rw [noPyMatch_dir, Bool.and_eq_true, Bool.and_eq_true] at h
    cases hr : reactDirMatch n <;>
      simp only [cleanReactRun_dir, hr, Bool.false_eq_true, if_false, if_true,
        noPyMatch_dir, h.1.1, ihc h.1.2, ihr h.2, Bool.and_self]

/-- A forest without python-matched names is a fixed point of the python
pass, with zero statistics. -/
theorem cleanPy_fixed (l : FSList) (h : noPyMatch l = true) :
    cleanPyRun l = ⟨l, 0, 0⟩ := by
  induction l using FSList.customInduction with
  | hnil => rfl
  | hfile n c ok rest ih =>
    rw [noPyMatch_file, Bool.and_eq_true, Bool.not_eq_true'] at h
    rw [cleanPyRun_file, if_neg (by simp [h.1]), ih h.2]
  | hdir n cs rest ihc ihr =>
    rw [noPyMatch_dir, Bool.and_eq_true, Bool.and_eq_true, Bool.not_eq_true'] at h
    rw [cleanPyRun_dir, if_neg (by simp [h.1.1]), ihc h.1.2, ihr h.2]
    rfl

/-- A forest without react-matched names is a fixed point of the react
pass, with zero statistics. -/
theorem cleanReact_fixed (l : FSList) (h : noReactMatch l = true) :
    cleanReactRun l = ⟨l, 0, 0⟩ := by
  induction l using FSList.customInduction with
  | hnil => rfl
  | hfile n c ok rest ih =>
    rw [noReactMatch_file] at h
    rw [cleanReactRun_file, ih h]
  | hdir n cs rest ihc ihr =>
    rw [noReactMatch_dir, Bool.and_eq_true, Bool.and_eq_true, Bool.not_eq_true'] at h
    rw [cleanReactRun_dir, if_neg (by simp [h.1.1]), ihc h.1.2, ihr h.2]
    rfl

/-- C5: a second `clean_all` pass over an already cleaned tree removes
nothing — it reports zero folders removed and zero bytes freed, and
leaves the tree exactly as the first pass left it.  The summary each
pass prints is the delta accumulated since the call began, so the
second report is exactly zero. -/
theorem C5_clean_all_idempotent (fs : FSList) :
    (clean_all_run ((clean_all_run fs).fs)).count = 0 ∧
    (clean_all_run ((clean_all_run fs).fs)).bytes = 0 ∧
    (clean_all_run ((clean_all_run fs).fs)).fs = (clean_all_run fs).fs := by
  have h1 : noPyMatch ((clean_all_run fs).fs) = true :=
    cleanReact_preserves_noPy _ (cleanPy_no_match fs)
  have h2 : noReactMatch ((clean_all_run fs).fs) = true :=
    cleanReact_no_match _
  generalize (clean_all_run fs).fs = T at h1 h2
  have hp := cleanPy_fixed _ h1
  have hr := cleanReact_fixed _ h2
  refine ⟨?_, ?_, ?_⟩ <;> simp only [clean_all_run, hp, hr]

/-! Case equations for the archiver walk. -/

theorem zipFiles_dirCase (z : Zipper) (rel : List String) (n : String)
    (cs rest : FSList) :
    zipFiles z rel (.cons (.dir n cs) rest) = zipFiles z rel rest := by
  rw [zipFiles]

theorem zipFiles_fileCase (z : Zipper) (rel : List String) (n c : String)
    (ok : Bool) (rest : FSList) :
    zipFiles z rel (.cons (.file n c ok) rest)
      = if should_exclude z (z.source_parts ++ rel ++ [n]) then
          zipFiles z rel rest
        else if ok then
          ⟨(relpath_from (z.source_parts ++ rel ++ [n]) z.source_parts.dropLast, c)
             :: (zipFiles z rel rest).entries,
           (zipFiles z rel rest).total_files + 1,
           (zipFiles z rel rest).compressed_files + 1,
           (zipFiles z rel rest).failed, (zipFiles z rel rest).visited⟩
        else
          ⟨(zipFiles z rel rest).entries, (zipFiles z rel rest).total_files + 1,
           (zipFiles z rel rest).compressed_files,
           (z.source_parts ++ rel ++ [n]) :: (zipFiles z rel rest).failed,
           (zipFiles z rel rest).visited⟩ := by
  rw [zipFiles]

theorem zipDirs_fileCase (z : Zipper) (rel : List String) (n c : String)
    (ok : Bool) (rest : FSList) :
    zipDirs z rel (.cons (.file n c ok) rest) = zipDirs z rel rest := by
  rw [zipDirs]

theorem zipDirs_dirCase (z : Zipper) (rel : List String) (n : String)
    (cs rest : FSList) :
    zipDirs z rel (.cons (.dir n cs) rest)
      = if should_exclude z (z.source_parts ++ rel ++ [n]) then
          zipDirs z rel rest
        else
          ZipRes.append
            (ZipRes.append ⟨[], 0, 0, [], [rel ++ [n]]⟩
              (ZipRes.append (zipFiles z (rel ++ [n]) cs)
                (zipDirs z (rel ++ [n]) cs)))
            (zipDirs z rel rest) := by
  rw [zipDirs]

/-- A segment of the source path matching a pattern poisons every path
below the source root. -/
theorem should_exclude_source (z : Zipper) (s : String)
    (hs : s ∈ z.source_parts)
    (hp : s ∈ z.exclude_patterns ∨ s ∈ cache_patterns) (x : List String) :
    should_exclude z (z.source_parts ++ x) = true := by
  simp only [should_exclude, Bool.or_eq_true, List.any_eq_true]
  rcases hp with hp | hp
  · exact Or.inl ⟨s, List.mem_append_left _ hs, List.elem_iff.2 hp⟩
  · exact Or.inr ⟨s, hp, List.elem_iff.2 (List.mem_append_left _ hs)⟩

/-- Exclusion only looks for one matching segment, so it is monotone
under extending the path. -/
theorem should_exclude_extend (z : Zipper) (a b : List String)
    (h : should_exclude z a = true) : should_exclude z (a ++ b) = true := by
  simp only [should_exclude, Bool.or_eq_true, List.any_eq_true] at h ⊢
  rcases h with ⟨x, hx, hpat⟩ | ⟨pat, hpat, hmem⟩
  · exact Or.inl ⟨x, List.mem_append_left _ hx, hpat⟩
  · exact Or.inr ⟨pat, hpat,
      List.elem_iff.2 (List.mem_append_left _ (List.elem_iff.1 hmem))⟩

/-- When every path below the source root is excluded, the walk adds
nothing, counts nothing, warns about nothing and opens no
subdirectory. -/
theorem zip_all_excluded (z : Zipper)
    (hz : ∀ x, should_exclude z (z.source_parts ++ x) = true) (l : FSList) :
    ∀ rel, zipFiles z rel l = ZipRes.empty ∧ zipDirs z rel l = ZipRes.empty := by
  induction l using FSList.customInduction with
  | hnil => exact fun rel => ⟨rfl, rfl⟩
  | hfile n c ok rest ih =>
    intro rel
    have h := hz (rel ++ [n])
    rw [← List.append_assoc] at h
    exact ⟨by rw [zipFiles_fileCase, if_pos h]; exact (ih rel).1,
      by rw [zipDirs_fileCase]; exact (ih rel).2⟩
  | hdir n cs rest ihc ihr =>
    intro rel
    have h := hz (rel ++ [n])
    rw [← List.append_assoc] at h
    exact ⟨by rw [zipFiles_dirCase]; exact (ihr rel).1,
      by rw [zipDirs_dirCase, if_pos h]; exact (ihr rel).2⟩

/-- C10: the exclusion check runs over the segments of the full absolute
path, including the segments of the resolved source root itself, so a
source directory whose own path contains a segment equal to a
registered pattern or a built-in cache pattern makes `create_zip`
exclude everything: the walk opens only the root and the archive gets
no entries whatever the tree holds. -/
theorem C10_source_path_poisoned (z : Zipper) (fs : FSList) (s : String)
    (hs : s ∈ z.source_parts)
    (hp : s ∈ z.exclude_patterns ∨ s ∈ cache_patterns) :
    zipWalk z fs = ⟨[], 0, 0, [], [[]]⟩ := by
  have h := zip_all_excluded z (should_exclude_source z s hs hp) fs []
  rw [zipWalk, h.1, h.2]
  rfl

theorem C10_source_path_poisoned_witness :
    zipWalk ⟨["home", "build", "proj"], []⟩ projTree = ⟨[], 0, 0, [], [[]]⟩ :=
  C10_source_path_poisoned ⟨["home", "build", "proj"], []⟩ projTree "build"
    (by decide) (Or.inr (by decide))

/-- The file loop never opens a directory. -/
theorem zipFiles_visited (z : Zipper) (l : FSList) :
    ∀ rel, (zipFiles z rel l).visited = [] := by
  induction l using FSList.customInduction with
  | hnil => exact fun _ => rfl
  | hfile n c ok rest ih =>
    intro rel
    rw [zipFiles_fileCase]
    split
    · exact ih rel
    · split
      · exact ih rel
      · exact ih rel
  | hdir n cs rest ihc ihr =>
    intro rel
    rw [zipFiles_dirCase]
    exact ihr rel

/-- Every directory the walk opens passed the pruning check: its full
path is not excluded. -/
theorem zipDirs_visited_spec (z : Zipper) (l : FSList) :
    ∀ rel v, v ∈ (zipDirs z rel l).visited →
      should_exclude z (z.source_parts ++ v) = false := by
  induction l using FSList.customInduction with
  | hnil => intro rel v hv; cases hv
  | hfile n c ok rest ih =>
    intro rel v hv
    rw [zipDirs_fileCase] at hv
    exact ih rel v hv
  | hdir n cs rest ihc ihr =>
    intro rel v hv
    rw [zipDirs_dirCase] at hv
    by_cases h : should_exclude z (z.source_parts ++ rel ++ [n]) = true
    · rw [if_pos h] at hv
      exact ihr rel v hv
    · rw [if_neg h] at hv
      simp only [ZipRes.append_visited, zipFiles_visited, List.nil_append,
        List.mem_append, List.mem_singleton] at hv
      rcases hv with (hv | hv) | hv
      · subst hv
        rw [← List.append_assoc]
        exact Bool.not_eq_true _ ▸ (by simpa using h)
      · exact ihc (rel ++ [n]) v hv
      · exact ihr rel v hv

/-- Every archive entry was produced by the file loop from a
non-excluded file: its path is the relative path of that file from the
parent of the source root. -/
theorem zipFiles_entries_spec (z : Zipper) (l : FSList) :
    ∀ rel p c, (p, c) ∈ (zipFiles z rel l).entries →
      ∃ w, p = relpath_from (z.source_parts ++ w) z.source_parts.dropLast ∧
        should_exclude z (z.source_parts ++ w) = false := by
  induction l using FSList.customInduction with
  | hnil => intro rel p c hp; cases hp
  | hfile n c0 ok rest ih =>
    intro rel p c hp
    rw [zipFiles_fileCase] at hp
    by_cases h : should_exclude z (z.source_parts ++ rel ++ [n]) = true
    · rw [if_pos h] at hp
      exact ih rel p c hp
    · rw [if_neg h] at hp
      cases ok with
      | true =>
        rcases List.mem_cons.1 hp with heq | hmem
        · refine ⟨rel ++ [n], ?_, ?_⟩
          · have := congrArg Prod.fst heq
            simpa [← List.append_assoc] using this
          · rw [← List.append_assoc]
            simpa using h
        · exact ih rel p c hmem
      | false => exact ih rel p c hp
  | hdir n cs rest ihc ihr =>
    intro rel p c hp
    rw [zipFiles_dirCase] at hp
    exact ihr rel p c hp

/-- Entries collected below subdirectories satisfy the same
characterization. -/
theorem zipDirs_entries_spec (z : Zipper) (l : FSList) :
    ∀ rel p c, (p, c) ∈ (zipDirs z rel l).entries →
      ∃ w, p = relpath_from (z.source_parts ++ w) z.source_parts.dropLast ∧
        should_exclude z (z.source_parts ++ w) = false := by
  induction l using FSList.customInduction with
  | hnil => intro rel p c hp; cases hp
  | hfile n c0 ok rest ih =>
    intro rel p c hp
    rw [zipDirs_fileCase] at hp
    exact ih rel p c hp
  | hdir n cs rest ihc ihr =>
    intro rel p c hp
    rw [zipDirs_dirCase] at hp
    by_cases h : should_exclude z (z.source_parts ++ rel ++ [n]) = true
    · rw [if_pos h] at hp
      exact ihr rel p c hp
    · rw [if_neg h] at hp
      simp only [ZipRes.append_entries, List.nil_append, List.mem_append] at hp
      rcases hp with (hp | hp) | hp
      · exact zipFiles_entries_spec z cs (rel ++ [n]) p c hp
      · exact ihc (rel ++ [n]) p c hp
      · exact ihr rel p c hp

/-- Characterization of the entries of a whole `create_zip` walk. -/
theorem zipWalk_entries_spec (z : Zipper) (l : FSList) (p : List String)
    (c : String) (hp : (p, c) ∈ (zipWalk z l).entries) :
    ∃ w, p = relpath_from (z.source_parts ++ w) z.source_parts.dropLast ∧
      should_exclude z (z.source_parts ++ w) = false := by
  rw [zipWalk] at hp
  simp only [ZipRes.append_entries, List.nil_append, List.mem_append] at hp
  rcases hp with hp | hp
  · exact zipFiles_entries_spec z l [] p c hp
  · exact zipDirs_entries_spec z l [] p c hp

/-- With a nonempty resolved source path, the relative path from the
parent of the source root to a file below the root is the source
directory name followed by the path inside the root. -/
theorem relpath_source (z : Zipper) (h : z.source_parts ≠ []) (w : List String) :
    relpath_from (z.source_parts ++ w) z.source_parts.dropLast
      = z.source_name :: w := by
  rcases List.eq_nil_or_concat z.source_parts with h0 | ⟨i, a, hi⟩
  · exact absurd h0 h
  · rw [Zipper.source_name, hi, List.concat_eq_append, relpath_from,
      List.dropLast_concat, List.append_assoc, List.drop_left,
      List.getLastD_concat]
    rfl

/-- C4: an excluded directory is dropped from the walk list before the
descent (first conjunct, the pruning assignment), so for any excluded
relative directory path `q`, the walk never opens `q` or anything below
it (second conjunct) and no file beneath `q` contributes an archive
entry (third conjunct). -/
theorem C4_excluded_dir_never_entered (z : Zipper) (fs : FSList)
    (q rel : List String) (n : String) (cs rest : FSList)
    (hsp : z.source_parts ≠ [])
    (hq : should_exclude z (z.source_parts ++ q) = true) (hne : q ≠ [])
    (hd : should_exclude z (z.source_parts ++ rel ++ [n]) = true) :
    zipDirs z rel (.cons (.dir n cs) rest) = zipDirs z rel rest ∧
    (∀ v ∈ (zipWalk z fs).visited, ¬ ∃ t, v = q ++ t) ∧
    (∀ p c, (p, c) ∈ (zipWalk z fs).entries →
      ¬ ∃ t, p = (z.source_name :: q) ++ t) := by
  refine ⟨by rw [zipDirs_dirCase, if_pos hd], ?_, ?_⟩
  · rintro v hv ⟨t, rfl⟩
    rw [zipWalk] at hv
    simp only [ZipRes.append_visited, zipFiles_visited, List.nil_append,
      List.mem_append, List.mem_singleton] at hv
    rcases hv with hv | hv
    · exact hne (List.append_eq_nil.1 hv).1
    · have hfalse := zipDirs_visited_spec z fs [] (q ++ t) hv
      have htrue := should_exclude_extend z (z.source_parts ++ q) t hq
      rw [List.append_assoc] at htrue
      rw [htrue] at hfalse
      cases hfalse
  · rintro p c hp ⟨t, hpt⟩
    obtain ⟨w, hw, hexc⟩ := zipWalk_entries_spec z fs p c hp
    rw [relpath_source z hsp] at hw
    rw [hw, List.cons_append, List.cons.injEq] at hpt
    have htrue := should_exclude_extend z (z.source_parts ++ q) t hq
    rw [List.append_assoc, ← hpt.2] at htrue
    rw [htrue] at hexc
    cases hexc

theorem C4_excluded_dir_never_entered_witness :
    zipDirs ⟨["r", "proj"], ["secret"]⟩ []
        (.cons (.dir "secret" (.cons (.file "s.txt" "s" true) .nil)) .nil)
      = zipDirs ⟨["r", "proj"], ["secret"]⟩ [] .nil ∧
    (∀ v ∈ (zipWalk ⟨["r", "proj"], ["secret"]⟩ secretTree).visited,
      ¬ ∃ t, v = ["secret"] ++ t) ∧
    (∀ p c, (p, c) ∈ (zipWalk ⟨["r", "proj"], ["secret"]⟩ secretTree).entries →
      ¬ ∃ t, p = (Zipper.source_name ⟨["r", "proj"], ["secret"]⟩ :: ["secret"]) ++ t) :=
  C4_excluded_dir_never_entered ⟨["r", "proj"], ["secret"]⟩ secretTree
    ["secret"] [] "secret" (.cons (.file "s.txt" "s" true) .nil) .nil
    (by decide) (by decide) (by decide) (by decide)

/-- C7: every archive entry path is the path of the file relative to the
parent of the source root — the source directory name followed by the
path inside the root (first conjunct) — and on the concrete tree
`{a.txt: "hello", sub/b.txt: "world"}` with no excludes the archive
holds exactly the two files with identical content rooted under the
source directory name, so extraction reproduces the tree (second
conjunct). -/
theorem C7_entry_paths_roundtrip (z : Zipper) (fs : FSList) (p : List String)
    (c : String) (hsp : z.source_parts ≠ [])
    (hp : (p, c) ∈ (zipWalk z fs).entries) :
    (∃ w, p = z.source_name :: w) ∧
    (zipWalk ⟨["r", "proj"], []⟩ projTree).entries
      = [(["proj", "a.txt"], "hello"), (["proj", "sub", "b.txt"], "world")] := by
  refine ⟨?_, by decide⟩
  obtain ⟨w, hw, _⟩ := zipWalk_entries_spec z fs p c hp
  rw [relpath_source z hsp] at hw
  exact ⟨w, hw⟩

theorem C7_entry_paths_roundtrip_witness :
    (∃ w, (["proj", "a.txt"] : List String)
      = Zipper.source_name ⟨["r", "proj"], []⟩ :: w) ∧
    (zipWalk ⟨["r", "proj"], []⟩ projTree).entries
      = [(["proj", "a.txt"], "hello"), (["proj", "sub", "b.txt"], "world")] :=
  C7_entry_paths_roundtrip ⟨["r", "proj"], []⟩ projTree ["proj", "a.txt"]
    "hello" (by decide) (by decide)

/-! Case equations for the cleaning filter and path lookups. -/

theorem cleanFS_file (n c : String) (ok : Bool) (rest : FSList) :
    cleanFS (.cons (.file n c ok) rest)
      = if pythonFileMatch n then cleanFS rest
        else .cons (.file n c ok) (cleanFS rest) := by
  rw [cleanFS]

theorem cleanFS_dir (n : String) (cs rest : FSList) :
    cleanFS (.cons (.dir n cs) rest)
      = if pythonDirMatch n || reactDirMatch n then cleanFS rest
        else .cons (.dir n (cleanFS cs)) (cleanFS rest) := by
  rw [cleanFS]

theorem findEntry_cons (e : FSEntry) (rest : FSList) (n : String) :
    findEntry (.cons e rest) n
      = if e.name = n then some e else findEntry rest n := by
  rw [findEntry]

theorem cleanView_dir (n : String) (cs : FSList) :
    cleanView (.dir n cs) = .dir n ((clean_all_run cs).fs) := by
  rw [cleanView]

/-- The net filesystem effect of `clean_all` is the single recursive
filter `cleanFS`: python pass then react pass drop exactly the subtrees
rooted at matched names. -/
theorem clean_all_fs_eq (l : FSList) : (clean_all_run l).fs = cleanFS l := by
  show (cleanReactRun (cleanPyRun l).fs).fs = cleanFS l
  induction l using FSList.customInduction with
  | hnil => rfl
  | hfile n c ok rest ih =>
    cases h : pythonFileMatch n
    · simp only [cleanPyRun_file, h, Bool.false_eq_true, if_false,
        cleanReactRun_file, cleanFS_file, ih]
    · simp only [cleanPyRun_file, h, if_true, cleanFS_file, ih]
  | hdir n cs rest ihc ihr =>
    cases hp : pythonDirMatch n
    · cases hr : reactDirMatch n
      · simp only [cleanPyRun_dir, hp, Bool.false_eq_true, if_false,
          cleanReactRun_dir, hr, cleanFS_dir, Bool.or_self, ihc, ihr]
      · simp only [cleanPyRun_dir, hp, Bool.false_eq_true, if_false,
          cleanReactRun_dir, hr, if_true, cleanFS_dir, Bool.false_or, ihr]
    · simp only [cleanPyRun_dir, hp, if_true, cleanFS_dir, Bool.true_or, ihr]

/-- A directly contained entry that survives on name grounds is still
found under the same name after the filter, with its own subtree
filtered. -/
theorem findEntry_clean (n : String) (e : FSEntry) :
    ∀ l, findEntry l n = some e → keepName e = true →
      findEntry (cleanFS l) n = some (cleanView e) := by
  intro l
  induction l using FSList.customInduction with
  | hnil => intro h _; rw [findEntry] at h; exact Option.noConfusion h
  | hfile n0 c0 ok0 rest ih =>
    intro h hk
    rw [findEntry_cons] at h
    simp only [FSEntry.name] at h
    by_cases hn : n0 = n
    · rw [if_pos hn] at h
      have he : e = .file n0 c0 ok0 := (Option.some.injEq _ _ ▸ h).symm
      subst he
      simp only [keepName, Bool.not_eq_true'] at hk
      rw [cleanFS_file, if_neg (by simp [hk]), findEntry_cons]
      simp only [FSEntry.name, if_pos hn]
      rfl
    · rw [if_neg hn] at h
      cases hm : pythonFileMatch n0
      · rw [cleanFS_file, if_neg (by simp [hm]), findEntry_cons]
        simp only [FSEntry.name, if_neg hn]
        exact ih h hk
      · rw [cleanFS_file, if_pos (by simp [hm])]
        exact ih h hk
  | hdir n0 cs rest ihc ihr =>
    intro h hk
    rw [findEntry_cons] at h
    simp only [FSEntry.name] at h
    by_cases hn : n0 = n
    · rw [if_pos hn] at h
      have he : e = .dir n0 cs := (Option.some.injEq _ _ ▸ h).symm
      subst he
      simp only [keepName, Bool.not_eq_true'] at hk
      rw [cleanFS_dir, if_neg (by simp [hk]), findEntry_cons]
      simp only [FSEntry.name, if_pos hn]
      simp only [cleanView, clean_all_fs_eq]
    · rw [if_neg hn] at h
      cases hm : (pythonDirMatch n0 || reactDirMatch n0)
      · rw [cleanFS_dir, if_neg (by simp [hm]), findEntry_cons]
        simp only [FSEntry.name, if_neg hn]
        exact ihr h hk
      · rw [cleanFS_dir, if_pos (by simp [hm])]
        exact ihr h hk

/-- C6, counterexample: the clean pass deletes the directory `pkg`
(whose name is outside both target sets) because it sits inside the
matched `node_modules` — so it is not true that every entry named
outside the target sets is left on disk. -/
theorem C6_counterexample :
    pythonDirMatch "pkg" = false ∧ reactDirMatch "pkg" = false ∧
    pythonFileMatch "pkg" = false ∧
    (lookupPath nodeModulesTree ["node_modules", "pkg"]).isSome = true ∧
    (lookupPath ((clean_all_run nodeModulesTree).fs)
      ["node_modules", "pkg"]).isSome = false := by
  decide

/-- C6, amended: the clean pass deletes exactly the subtrees rooted at
matched names.  Every entry all of whose path components (itself and
its ancestors below the root) fall outside the target sets is still
found at the same path afterwards — a file with identical content and
add behavior, a directory with exactly its unmatched subtree
retained. -/
theorem C6_unmatched_paths_survive (l : FSList) (p : List String) (e : FSEntry)
    (h1 : lookupPath l p = some e) (h2 : pathKept l p = true) :
    lookupPath ((clean_all_run l).fs) p = some (cleanView e) := by
  rw [clean_all_fs_eq]
  revert h1 h2
  induction p generalizing l e with
  | nil =>
    intro h1 h2
    rw [lookupPath] at h1
    exact Option.noConfusion h1
  | cons n rest ih =>
    cases rest with
    | nil =>
      intro h1 h2
      rw [lookupPath] at h1 ⊢
      rw [pathKept] at h2
      rw [h1] at h2
      exact findEntry_clean n e l h1 h2
    | cons m rest2 =>
      intro h1 h2
      rw [lookupPath] at h1 ⊢
      rw [pathKept] at h2
      cases hf : findEntry l n with
      | none =>
        rw [hf] at h1
        exact Option.noConfusion h1
      | some e0 =>
        cases e0 with
        | file n0 c0 ok0 =>
          rw [hf] at h1
          exact Option.noConfusion h1
        | dir n0 cs =>
          rw [hf] at h1 h2
          rw [Bool.and_eq_true] at h2
          have hf2 := findEntry_clean n (.dir n0 cs) l hf h2.1
          rw [hf2, cleanView_dir, clean_all_fs_eq]
          exact ih cs e h1 h2.2

theorem C6_unmatched_paths_survive_witness :
    lookupPath ((clean_all_run
        (.cons (.dir "src" (.cons (.file "keep.txt" "data" true) .nil))
          nodeModulesTree)).fs) ["src", "keep.txt"]
      = some (cleanView (.file "keep.txt" "data" true)) :=
  C6_unmatched_paths_survive
    (.cons (.dir "src" (.cons (.file "keep.txt" "data" true) .nil))
      nodeModulesTree)
    ["src", "keep.txt"] (.file "keep.txt" "data" true) rfl (by decide)
